import Mathlib

/-!
Verification of the DoubleClick price codec
(`src/doubleclick/doubleclick_pricer.go`, package `doubleclick` of
benjaminch/openrtb-pricers).

Shallow embedding conventions:
- Go `[]byte` / `[n]byte` values are `List Nat` with entries `< 256`.
- Go `string` values are `List Char` (tokens and key source strings are
  ASCII); a seed is passed to `Encrypt` as its UTF-8 byte list, mirroring
  the Go conversion `[]byte(seed)` at the call boundary.
- Go `float64` prices and scale factors are modelled as exact rationals
  (`ℚ`): the properties below concern the scale-factor integer rounding,
  not IEEE-754 rounding of `float64` arithmetic.
- The `hash.Hash` HMAC contexts stored on the codec are modelled by their
  key bytes, each `HmacSum` invocation being the self-contained pure
  function `(key, message) ↦ digest` (spec §5/§9).
- A Go runtime panic (slice index out of range) is a distinct outcome
  constructor, never a value.

The `helpers` package of the repository is not under `src/`; its members
(`CreateHmac`, `HmacSum`, `ApplyScaleFactor`, `AddBase64Padding`,
`KeyDecodingMode`) are modelled from the spec, as marked on each
definition.  Everything in `doubleclick_pricer.go` itself, and the Go
standard library functions it calls (`crypto/md5`, `encoding/base64`,
`encoding/hex`, `encoding/binary`), is translated directly.
-/

namespace OpenRTB

/-! ## Byte and word helpers (encoding/binary semantics) -/

/-- Little-endian byte serialisation of a 32-bit word. -/
def uint32LEBytes (x : Nat) : List Nat :=
  [x % 256, x / 256 % 256, x / 65536 % 256, x / 16777216 % 256]

/-- Little-endian byte serialisation of a 64-bit word (used by MD5 length
padding). -/
def uint64LEBytes (x : Nat) : List Nat :=
  [x % 256, x / 256 % 256, x / 65536 % 256, x / 16777216 % 256,
   x / 4294967296 % 256, x / 1099511627776 % 256,
   x / 281474976710656 % 256, x / 72057594037927936 % 256]

/-- Big-endian byte serialisation of a 64-bit word:
`binary.BigEndian.PutUint64`. -/
def uint64BEBytes (x : Nat) : List Nat :=
  [x / 72057594037927936 % 256, x / 281474976710656 % 256,
   x / 1099511627776 % 256, x / 4294967296 % 256,
   x / 16777216 % 256, x / 65536 % 256, x / 256 % 256, x % 256]

/-- Big-endian read of an 8-byte list: `binary.BigEndian.Uint64`. -/
def beUint64 (bs : List Nat) : Nat :=
  bs.foldl (fun acc b => acc * 256 + b) 0

/-! ## MD5 (crypto/md5, RFC 1321) -/

/-- Bitwise complement on 32-bit words. -/
def w32not (x : Nat) : Nat := Nat.xor x 4294967295

/-- Left rotation of a 32-bit word by `s` bits. -/
def rotl32 (x s : Nat) : Nat :=
  Nat.lor (Nat.shiftLeft x s) (Nat.shiftRight x (32 - s)) % 4294967296

/-- MD5 per-round sine-derived constants `K[0..63]` (RFC 1321). -/
def md5K : List Nat :=
  [0xd76aa478, 0xe8c7b756, 0x242070db, 0xc1bdceee,
   0xf57c0faf, 0x4787c62a, 0xa8304613, 0xfd469501,
   0x698098d8, 0x8b44f7af, 0xffff5bb1, 0x895cd7be,
   0x6b901122, 0xfd987193, 0xa679438e, 0x49b40821,
   0xf61e2562, 0xc040b340, 0x265e5a51, 0xe9b6c7aa,
   0xd62f105d, 0x02441453, 0xd8a1e681, 0xe7d3fbc8,
   0x21e1cde6, 0xc33707d6, 0xf4d50d87, 0x455a14ed,
   0xa9e3e905, 0xfcefa3f8, 0x676f02d9, 0x8d2a4c8a,
   0xfffa3942, 0x8771f681, 0x6d9d6122, 0xfde5380c,
   0xa4beea44, 0x4bdecfa9, 0xf6bb4b60, 0xbebfbc70,
   0x289b7ec6, 0xeaa127fa, 0xd4ef3085, 0x04881d05,
   0xd9d4d039, 0xe6db99e5, 0x1fa27cf8, 0xc4ac5665,
   0xf4292244, 0x432aff97, 0xab9423a7, 0xfc93a039,
   0x655b59c3, 0x8f0ccc92, 0xffeff47d, 0x85845dd1,
   0x6fa87e4f, 0xfe2ce6e0, 0xa3014314, 0x4e0811a1,
   0xf7537e82, 0xbd3af235, 0x2ad7d2bb, 0xeb86d391]

/-- MD5 per-round left-rotation amounts `s[0..63]` (RFC 1321). -/
def md5S : List Nat :=
  [7, 12, 17, 22, 7, 12, 17, 22, 7, 12, 17, 22, 7, 12, 17, 22,
   5, 9, 14, 20, 5, 9, 14, 20, 5, 9, 14, 20, 5, 9, 14, 20,
   4, 11, 16, 23, 4, 11, 16, 23, 4, 11, 16, 23, 4, 11, 16, 23,
   6, 10, 15, 21, 6, 10, 15, 21, 6, 10, 15, 21, 6, 10, 15, 21]

/-- MD5 round mixing function (F, G, H, I per 16-round group). -/
def md5F (i b c d : Nat) : Nat :=
  if i < 16 then Nat.lor (Nat.land b c) (Nat.land (w32not b) d)
  else if i < 32 then Nat.lor (Nat.land d b) (Nat.land (w32not d) c)
  else if i < 48 then Nat.xor b (Nat.xor c d)
  else Nat.xor c (Nat.lor b (w32not d))

/-- MD5 message-word index schedule. -/
def md5G (i : Nat) : Nat :=
  if i < 16 then i
  else if i < 32 then (5 * i + 1) % 16
  else if i < 48 then (3 * i + 5) % 16
  else (7 * i) % 16

/-- Little-endian 4-byte grouping of a 64-byte block into 16 words. -/
def leWords : List Nat → List Nat
  | b0 :: b1 :: b2 :: b3 :: rest =>
      (b0 + 256 * b1 + 65536 * b2 + 16777216 * b3) :: leWords rest
  | _ => []

/-- One MD5 round applied to the running state `(a, b, c, d)`. -/
def md5Round (m : List Nat) (st : Nat × Nat × Nat × Nat) (i : Nat) :
    Nat × Nat × Nat × Nat :=
  let a := st.1; let b := st.2.1; let c := st.2.2.1; let d := st.2.2.2
  let f := (md5F i b c d + a + md5K.getD i 0 + m.getD (md5G i) 0) % 4294967296
  (d, (b + rotl32 f (md5S.getD i 0)) % 4294967296, b, c)

/-- MD5 compression of one 64-byte block into the chaining state. -/
def md5Block (st : Nat × Nat × Nat × Nat) (block : List Nat) :
    Nat × Nat × Nat × Nat :=
  let m := leWords block
  let e := (List.range 64).foldl (md5Round m) st
  ((st.1 + e.1) % 4294967296, (st.2.1 + e.2.1) % 4294967296,
   (st.2.2.1 + e.2.2.1) % 4294967296, (st.2.2.2 + e.2.2.2) % 4294967296)

/-- MD5 initial chaining state. -/
def md5Init : Nat × Nat × Nat × Nat :=
  (0x67452301, 0xefcdab89, 0x98badcfe, 0x10325476)

/-- Merkle–Damgård padding: `0x80`, zeros to 56 mod 64, then the bit
length as a little-endian 64-bit word. -/
def md5Pad (msg : List Nat) : List Nat :=
  msg ++ 128 :: List.replicate ((119 - msg.length % 64) % 64) 0
      ++ uint64LEBytes (8 * msg.length % 18446744073709551616)

/-- Compression of a padded message, 64 bytes at a time. -/
def md5Process (st : Nat × Nat × Nat × Nat) (padded : List Nat) :
    Nat × Nat × Nat × Nat :=
  (List.range (padded.length / 64)).foldl
    (fun s i => md5Block s ((padded.drop (64 * i)).take 64)) st

/-- MD5 digest of a byte sequence: `md5.Sum` of crypto/md5, as a 16-byte
list. -/
def md5Sum (msg : List Nat) : List Nat :=
  let st := md5Process md5Init (md5Pad msg)
  uint32LEBytes st.1 ++ uint32LEBytes st.2.1
    ++ uint32LEBytes st.2.2.1 ++ uint32LEBytes st.2.2.2

/-! ## HMAC (helpers keyed-hash primitive) -/

/-- Modelled from the spec: the keyed-hash primitive behind
`helpers.CreateHmac` / `helpers.HmacSum` — "HMAC with a fixed underlying
hash — MD5-family digest size of 16 bytes, producing 16-byte HMAC
outputs" (spec §4.1), computed per RFC 2104 with a 64-byte block size. -/
def hmacMd5 (key msg : List Nat) : List Nat :=
  let k0 := if 64 < key.length then md5Sum key else key
  let k := k0 ++ List.replicate (64 - k0.length) 0
  md5Sum (k.map (Nat.xor 0x5c) ++ md5Sum (k.map (Nat.xor 0x36) ++ msg))

/-- Modelled from the spec: `helpers.HmacSum(h, msg)` — each digest
operation is the self-contained pure function `(key, message) ↦ digest`
(spec §5, §9), the context being identified with its key bytes. -/
def HmacSum (key msg : List Nat) : List Nat := hmacMd5 key msg

/-! ## Base64 URL encoding (encoding/base64 `base64.URLEncoding`) -/

/-- URL-and-filename-safe base64 alphabet (RFC 4648 §5). -/
def b64Alphabet : List Char :=
  ['A', 'B', 'C', 'D', 'E', 'F', 'G', 'H', 'I', 'J', 'K', 'L', 'M',
   'N', 'O', 'P', 'Q', 'R', 'S', 'T', 'U', 'V', 'W', 'X', 'Y', 'Z',
   'a', 'b', 'c', 'd', 'e', 'f', 'g', 'h', 'i', 'j', 'k', 'l', 'm',
   'n', 'o', 'p', 'q', 'r', 's', 't', 'u', 'v', 'w', 'x', 'y', 'z',
   '0', '1', '2', '3', '4', '5', '6', '7', '8', '9', '-', '_']

/-- Character for a 6-bit group. -/
def b64Char (n : Nat) : Char := b64Alphabet.getD n 'A'

/-- Position of a character in an alphabet tail, offset by `i`. -/
def b64ValAux : List Char → Nat → Char → Option Nat
  | [], _, _ => none
  | a :: rest, i, c => if a = c then some i else b64ValAux rest (i + 1) c

/-- Value of an alphabet character (the decode map Go derives from the
alphabet), `none` for everything else (including `=`). -/
def b64Val (c : Char) : Option Nat := b64ValAux b64Alphabet 0 c

/-- Base64url encoding with padding: `base64.URLEncoding.EncodeToString`.
Bytes are consumed three at a time; a final group of one or two bytes is
right-padded with `=`. -/
def base64URLEncode : List Nat → List Char
  | [] => []
  | [b0] => [b64Char (b0 / 4), b64Char (b0 % 4 * 16), '=', '=']
  | [b0, b1] =>
      [b64Char (b0 / 4), b64Char (b0 % 4 * 16 + b1 / 16),
       b64Char (b1 % 16 * 4), '=']
  | b0 :: b1 :: b2 :: rest =>
      b64Char (b0 / 4) :: b64Char (b0 % 4 * 16 + b1 / 16)
        :: b64Char (b1 % 16 * 4 + b2 / 64) :: b64Char (b2 % 64)
        :: base64URLEncode rest

/-- Base64url decoding with mandatory padding:
`base64.URLEncoding.DecodeString`.  The input is consumed four characters
at a time; a group ending in `=` or `==` must be final; any character
outside the alphabet (or a length not a multiple of four) is a
`CorruptInputError`.  Like Go's non-`Strict()` decoder, unused trailing
bits of a padded group are ignored rather than rejected. -/
def base64URLDecode : List Char → Except String (List Nat)
  | [] => .ok []
  | [_] => .error "illegal base64 data"
  | [_, _] => .error "illegal base64 data"
  | [_, _, _] => .error "illegal base64 data"
  | c0 :: c1 :: c2 :: c3 :: rest =>
      match b64Val c0 with
      | none => .error "illegal base64 data"
      | some v0 =>
      match b64Val c1 with
      | none => .error "illegal base64 data"
      | some v1 =>
      if c2 = '=' then
        if c3 = '=' ∧ rest = [] then .ok [v0 * 4 + v1 / 16]
        else .error "illegal base64 data"
      else
        match b64Val c2 with
        | none => .error "illegal base64 data"
        | some v2 =>
        if c3 = '=' then
          if rest = [] then .ok [v0 * 4 + v1 / 16, v1 % 16 * 16 + v2 / 4]
          else .error "illegal base64 data"
        else
          match b64Val c3 with
          | none => .error "illegal base64 data"
          | some v3 =>
            (base64URLDecode rest).map
              (fun ds => (v0 * 4 + v1 / 16) :: (v1 % 16 * 16 + v2 / 4)
                :: (v2 % 4 * 64 + v3) :: ds)

/-- Modelled from the spec: `helpers.AddBase64Padding` — "consumers must
tolerate missing `=` padding and re-add it before decoding" (spec §6):
append `=` until the length is a multiple of four. -/
def AddBase64Padding (s : List Char) : List Char :=
  s ++ List.replicate ((4 - s.length % 4) % 4) '='

/-! ## Hex decoding (encoding/hex) -/

/-- Value of a hexadecimal digit. -/
def hexVal (c : Char) : Option Nat :=
  if '0' ≤ c ∧ c ≤ '9' then some (c.toNat - 48)
  else if 'a' ≤ c ∧ c ≤ 'f' then some (c.toNat - 87)
  else if 'A' ≤ c ∧ c ≤ 'F' then some (c.toNat - 55)
  else none

/-- Hex decoding: `hex.DecodeString`, two digits per byte; an odd length
or a non-hex digit is an error. -/
def hexDecode : List Char → Except String (List Nat)
  | [] => .ok []
  | [_] => .error "encoding/hex: odd length hex string"
  | c0 :: c1 :: rest =>
      match hexVal c0, hexVal c1 with
      | some v0, some v1 => (hexDecode rest).map (fun ds => (v0 * 16 + v1) :: ds)
      | _, _ => .error "encoding/hex: invalid byte"

/-! ## The helpers construction interface -/

/-- Modelled from the spec: `helpers.KeyDecodingMode` — "keyDecodingMode
(enum: {hex, base64web})" (spec §4.1). -/
inductive KeyDecodingMode where
  | hexa
  | base64web
deriving DecidableEq, Repr

/-- Modelled from the spec: `helpers.CreateHmac` — the key source string
is decoded into raw key bytes ("`isBase64Keys`: bool controlling which
decode path keys take", the modes being hex and base64web, spec §4.1);
"decoding a malformed key string (odd-length hex, invalid base64
alphabet) fails with a `KeyDecodingError`" (spec §4.1).  The resulting
keyed-hash context is identified with its key bytes. -/
def CreateHmac (key : List Char) (isBase64Keys : Bool)
    (mode : KeyDecodingMode) : Except String (List Nat) :=
  if isBase64Keys then base64URLDecode (AddBase64Padding key)
  else
    match mode with
    | .hexa => hexDecode key
    | .base64web => base64URLDecode (AddBase64Padding key)

/-- Modelled from the spec: `helpers.ApplyScaleFactor` — "`micros =
round(price * scaleFactor)`, encoded as an 8-byte big-endian unsigned
64-bit integer" (spec §4.2 step 1).  The call site
`data := helpers.ApplyScaleFactor(price, dc.scaleFactor, isDebugMode)`
(line 100 of the source) shows the helper returns the eight bytes alone,
with no error path; for scaled values outside `[0, 2^64)` Go's
float-to-unsigned conversion is implementation-dependent, rendered here
by clamping to ℕ and reducing mod `2^64`. -/
def ApplyScaleFactor (price scaleFactor : ℚ) : List Nat :=
  uint64BEBytes ((round (price * scaleFactor)).toNat % 18446744073709551616)

/-! ## DoubleClickPricer (doubleclick_pricer.go lines 16-196) -/

/-- The codec struct (lines 18-26).  The two `hash.Hash` HMAC contexts
are represented by their key bytes. -/
structure DoubleClickPricer where
  encryptionKeyRaw : List Char
  integrityKeyRaw : List Char
  encryptionKey : List Nat
  integrityKey : List Nat
  keyDecodingMode : KeyDecodingMode
  scaleFactor : ℚ
  isDebugMode : Bool
deriving DecidableEq, Repr

/-- Constructor `NewDoubleClickPricer` (lines 36-82).  The debug block
(lines 57-71) hex-decodes both key source strings again to log their raw
bytes, and a failing hex decode there aborts construction
(`return nil, err`). -/
def NewDoubleClickPricer (encryptionKey integrityKey : List Char)
    (isBase64Keys : Bool) (keyDecodingMode : KeyDecodingMode)
    (scaleFactor : ℚ) (isDebugMode : Bool) :
    Except String DoubleClickPricer :=
  match CreateHmac encryptionKey isBase64Keys keyDecodingMode with
  | .error e => .error e
  | .ok encryptingFun =>
    match CreateHmac integrityKey isBase64Keys keyDecodingMode with
    | .error e => .error e
    | .ok integrityFun =>
      if isDebugMode then
        match hexDecode encryptionKey with
        | .error e => .error e
        | .ok _ =>
          match hexDecode integrityKey with
          | .error e => .error e
          | .ok _ => .ok ⟨encryptionKey, integrityKey, encryptingFun,
              integrityFun, keyDecodingMode, scaleFactor, isDebugMode⟩
      else .ok ⟨encryptionKey, integrityKey, encryptingFun, integrityFun,
          keyDecodingMode, scaleFactor, isDebugMode⟩

/-- The 28-byte envelope `iv || enc_price || signature` built by
`Encrypt` (lines 100-135): `iv = md5.Sum(seed)`, `pad = hmac(e_key, iv)`
truncated to 8 bytes, `enc_data = pad XOR data` (the XOR loop
`for i := range data` runs over the eight price bytes, reading `pad[i]`,
which `List.zipWith` renders since `pad` also has eight bytes), and
`signature = hmac(i_key, data || iv)` truncated to 4 bytes. -/
def encryptEnvelope (dc : DoubleClickPricer) (seed : List Nat)
    (price : ℚ) : List Nat :=
  let data := ApplyScaleFactor price dc.scaleFactor
  let iv := md5Sum seed
  let pad := (HmacSum dc.encryptionKey iv).take 8
  iv ++ List.zipWith Nat.xor pad data
    ++ (HmacSum dc.integrityKey (data ++ iv)).take 4

/-- Method `Encrypt` (lines 85-136):
`WebSafeBase64Encode(iv || enc_price || signature)`, paired with the
`err` variable, which is never assigned and is therefore always nil.
The `isDebugMode` argument only feeds `glog` diagnostics and is unused
by the computation. -/
def DoubleClickPricer.Encrypt (dc : DoubleClickPricer) (seed : List Nat)
    (price : ℚ) (isDebugMode : Bool) : List Char × Option String :=
  let _ := isDebugMode
  (base64URLEncode (encryptEnvelope dc seed price), none)

/-- Outcome of `Decrypt`: a price paired with a nil error, a returned Go
error, or a runtime panic. -/
inductive DecryptResult where
  | price (p : ℚ)
  | goError (msg : String)
  | panicked
deriving DecidableEq, Repr

/-- Candidate micros recomputed by `Decrypt` (lines 169-182):
`priceMicro[i] = pad[i] XOR p[i]`. -/
def DoubleClickPricer.candidateMicros (dc : DoubleClickPricer)
    (iv p : List Nat) : List Nat :=
  List.zipWith Nat.xor ((HmacSum dc.encryptionKey iv).take 8) p

/-- Expected tag recomputed by `Decrypt` (lines 184-185):
`conf_sig = hmac(i_key, priceMicro || iv)`, first four bytes. -/
def DoubleClickPricer.expectedSig (dc : DoubleClickPricer)
    (iv p : List Nat) : List Nat :=
  (HmacSum dc.integrityKey (dc.candidateMicros iv p ++ iv)).take 4

/-- Method `Decrypt` (lines 139-196).  `DecodeString` returns a slice of
length `n` over a buffer of capacity `DecodedLen(len(s)) = len(s)/4*3`
whose bytes past `n` are the zero fill of `make`; the slice expressions
`decoded[0:16]`, `decoded[16:24]`, `decoded[24:28]` (lines 165-167)
panic exactly when the high bound exceeds that capacity, i.e. when the
capacity is below 28.  The tag comparison loop (lines 188-192) walks the
four bytes of `sig` against the four of `signature`, equivalent to
equality of the two 4-byte lists. -/
def DoubleClickPricer.Decrypt (dc : DoubleClickPricer)
    (encryptedPrice : List Char) (isDebugMode : Bool) : DecryptResult :=
  let padded := AddBase64Padding encryptedPrice
  match base64URLDecode padded with
  | .error e => .goError e
  | .ok decoded =>
    let cap := padded.length / 4 * 3
    let buf := decoded ++ List.replicate (cap - decoded.length) 0
    if 28 ≤ cap then
      let iv := buf.take 16
      let p := (buf.drop 16).take 8
      let signature := (buf.drop 24).take 4
      let sig := dc.expectedSig iv p
      let _ := isDebugMode
      if sig = signature then
        .price ((beUint64 (dc.candidateMicros iv p) : ℚ) / dc.scaleFactor)
      else .goError "Failed to decrypt"
    else .panicked

/-! ## Length and range lemmas -/

lemma md5Sum_length (msg : List Nat) : (md5Sum msg).length = 16 := by
  simp [md5Sum, uint32LEBytes]

lemma md5Sum_lt {msg : List Nat} : ∀ b ∈ md5Sum msg, b < 256 := by
  intro b hb
  simp [md5Sum, uint32LEBytes] at hb
  omega

lemma HmacSum_length (key msg : List Nat) : (HmacSum key msg).length = 16 :=
  md5Sum_length _

lemma HmacSum_lt {key msg : List Nat} : ∀ b ∈ HmacSum key msg, b < 256 :=
  md5Sum_lt

lemma uint64BEBytes_length (x : Nat) : (uint64BEBytes x).length = 8 := rfl

lemma uint64BEBytes_lt {x : Nat} : ∀ b ∈ uint64BEBytes x, b < 256 := by
  intro b hb
  simp [uint64BEBytes] at hb
  omega

lemma beUint64_uint64BEBytes {x : Nat} (h : x < 18446744073709551616) :
    beUint64 (uint64BEBytes x) = x := by
  simp [beUint64, uint64BEBytes]
  omega

lemma zipWith_xor_lt : ∀ (a b : List Nat), (∀ x ∈ a, x < 256) →
    (∀ x ∈ b, x < 256) → ∀ y ∈ List.zipWith Nat.xor a b, y < 256
  | [], _, _, _ => by simp
  | _ :: _, [], _, _ => by simp
  | x :: a, y :: b, ha, hb => by
    simp only [List.zipWith_cons_cons, List.mem_cons]
    rintro z (rfl | hz)
    · have hx : x < 2 ^ 8 := by simpa using ha x (by simp)
      have hy : y < 2 ^ 8 := by simpa using hb y (by simp)
      simpa using Nat.xor_lt_two_pow hx hy
    · exact zipWith_xor_lt a b (fun u hu => ha u (by simp [hu]))
        (fun u hu => hb u (by simp [hu])) z hz

lemma zipWith_xor_cancel : ∀ (a b : List Nat), a.length = b.length →
    List.zipWith Nat.xor a (List.zipWith Nat.xor a b) = b
  | [], [], _ => rfl
  | [], _ :: _, h => by simp at h
  | _ :: _, [], h => by simp at h
  | x :: a, y :: b, h => by
    simp only [List.zipWith_cons_cons, List.cons.injEq]
    exact ⟨Nat.xor_cancel_left x y, zipWith_xor_cancel a b (by simpa using h)⟩

/-! ## Base64 lemmas -/

lemma b64ValAux_lt : ∀ (l : List Char) (i : Nat) (c : Char) (v : Nat),
    b64ValAux l i c = some v → v < i + l.length
  | [], _, _, _, h => by simp [b64ValAux] at h
  | a :: l, i, c, v, h => by
    simp only [b64ValAux] at h
    split at h
    · simp only [Option.some.injEq] at h
      simp [← h]
    · have := b64ValAux_lt l (i + 1) c v h
      simp only [List.length_cons]
      omega

lemma b64Val_lt {c : Char} {v : Nat} (h : b64Val c = some v) : v < 64 := by
  simpa using b64ValAux_lt b64Alphabet 0 c v h

lemma b64Val_b64Char : ∀ n < 64, b64Val (b64Char n) = some n := by decide

lemma b64Char_ne_pad : ∀ n < 64, b64Char n ≠ '=' := by decide

lemma base64URLEncode_length :
    ∀ bs : List Nat, (base64URLEncode bs).length = (bs.length + 2) / 3 * 4
  | [] => by simp [base64URLEncode]
  | [_] => by simp [base64URLEncode]
  | [_, _] => by simp [base64URLEncode]
  | _ :: _ :: _ :: rest => by
    have ih := base64URLEncode_length rest
    simp only [base64URLEncode, List.length_cons, ih]
    omega

lemma base64URLEncode_drop_pad :
    ∀ bs : List Nat, bs.length % 3 = 1 →
      (base64URLEncode bs).drop (bs.length / 3 * 4 + 2) = ['=', '=']
  | [], h => by simp at h
  | [_], _ => by simp [base64URLEncode]
  | [_, _], h => by simp at h
  | b0 :: b1 :: b2 :: rest, h => by
    have hr : rest.length % 3 = 1 := by simp only [List.length_cons] at h; omega
    have ih := base64URLEncode_drop_pad rest hr
    have hq : (b0 :: b1 :: b2 :: rest).length / 3 * 4 + 2 =
        (rest.length / 3 * 4 + 2) + 4 := by simp only [List.length_cons]; omega
    rw [hq]
    simpa [base64URLEncode] using ih

lemma base64URLDecode_encode :
    ∀ bs : List Nat, (∀ b ∈ bs, b < 256) →
      base64URLDecode (base64URLEncode bs) = .ok bs
  | [], _ => rfl
  | [b0], h => by
    have hb0 : b0 < 256 := h b0 (by simp)
    have h0 := b64Val_b64Char (b0 / 4) (by omega)
    have h1 := b64Val_b64Char (b0 % 4 * 16) (by omega)
    have e1 : b0 / 4 * 4 + b0 % 4 * 16 / 16 = b0 := by omega
    simp [base64URLEncode, base64URLDecode, h0, h1, e1]
    omega
  | [b0, b1], h => by
    have hb0 : b0 < 256 := h b0 (by simp)
    have hb1 : b1 < 256 := h b1 (by simp)
    have h0 := b64Val_b64Char (b0 / 4) (by omega)
    have h1 := b64Val_b64Char (b0 % 4 * 16 + b1 / 16) (by omega)
    have h2 := b64Val_b64Char (b1 % 16 * 4) (by omega)
    have hne2 := b64Char_ne_pad (b1 % 16 * 4) (by omega)
    have e1 : b0 / 4 * 4 + (b0 % 4 * 16 + b1 / 16) / 16 = b0 := by omega
    have e2 : (b0 % 4 * 16 + b1 / 16) % 16 * 16 + b1 % 16 * 4 / 4 = b1 := by
      omega
    simp [base64URLEncode, base64URLDecode, h0, h1, h2, hne2, e1, e2]
    omega
  | b0 :: b1 :: b2 :: rest, h => by
    have hb0 : b0 < 256 := h b0 (by simp)
    have hb1 : b1 < 256 := h b1 (by simp)
    have hb2 : b2 < 256 := h b2 (by simp)
    have ih := base64URLDecode_encode rest
      (fun b hb => h b (by simp [hb]))
    have h0 := b64Val_b64Char (b0 / 4) (by omega)
    have h1 := b64Val_b64Char (b0 % 4 * 16 + b1 / 16) (by omega)
    have h2 := b64Val_b64Char (b1 % 16 * 4 + b2 / 64) (by omega)
    have h3 := b64Val_b64Char (b2 % 64) (by omega)
    have hne2 := b64Char_ne_pad (b1 % 16 * 4 + b2 / 64) (by omega)
    have hne3 := b64Char_ne_pad (b2 % 64) (by omega)
    have e1 : b0 / 4 * 4 + (b0 % 4 * 16 + b1 / 16) / 16 = b0 := by omega
    have e2 : (b0 % 4 * 16 + b1 / 16) % 16 * 16
        + (b1 % 16 * 4 + b2 / 64) / 4 = b1 := by omega
    have e3 : (b1 % 16 * 4 + b2 / 64) % 4 * 64 + b2 % 64 = b2 := by omega
    -- the four emitted characters followed by the encoding of `rest`
    simp only [base64URLEncode]
    simp [base64URLDecode, h0, h1, h2, h3, hne2, hne3, ih, e1, e2, e3,
      Except.map]

lemma base64URLDecode_ok :
    ∀ (s : List Char) (d : List Nat), base64URLDecode s = .ok d →
      d.length ≤ s.length / 4 * 3 ∧ ∀ b ∈ d, b < 256
  | [], d, h => by
    simp only [base64URLDecode, Except.ok.injEq] at h
    simp [← h]
  | [_], _, h => Except.noConfusion h
  | [_, _], _, h => Except.noConfusion h
  | [_, _, _], _, h => Except.noConfusion h
  | c0 :: c1 :: c2 :: c3 :: rest, d, h => by
    simp only [base64URLDecode] at h
    rcases hv0 : b64Val c0 with _ | v0 <;> simp only [hv0] at h
    · exact Except.noConfusion h
    rcases hv1 : b64Val c1 with _ | v1 <;> simp only [hv1] at h
    · exact Except.noConfusion h
    have hv0lt := b64Val_lt hv0
    have hv1lt := b64Val_lt hv1
    by_cases hc2 : c2 = '='
    · rw [if_pos hc2] at h
      split at h
      · simp only [Except.ok.injEq] at h
        subst h
        refine ⟨by simp only [List.length_cons, List.length_nil]; omega, ?_⟩
        intro b hb
        simp only [List.mem_singleton] at hb
        omega
      · exact Except.noConfusion h
    · rw [if_neg hc2] at h
      rcases hv2 : b64Val c2 with _ | v2 <;> simp only [hv2] at h
      · exact Except.noConfusion h
      have hv2lt := b64Val_lt hv2
      by_cases hc3 : c3 = '='
      · rw [if_pos hc3] at h
        split at h
        · simp only [Except.ok.injEq] at h
          subst h
          refine ⟨by simp only [List.length_cons, List.length_nil]; omega, ?_⟩
          intro b hb
          simp only [List.mem_cons, List.not_mem_nil, or_false] at hb
          rcases hb with rfl | rfl <;> omega
        · exact Except.noConfusion h
      · rw [if_neg hc3] at h
        rcases hv3 : b64Val c3 with _ | v3 <;> simp only [hv3] at h
        · exact Except.noConfusion h
        have hv3lt := b64Val_lt hv3
        rcases hrest : base64URLDecode rest with e | ds <;>
          simp only [hrest, Except.map] at h
        · exact Except.noConfusion h
        simp only [Except.ok.injEq] at h
        subst h
        have ih := base64URLDecode_ok rest ds hrest
        refine ⟨?_, ?_⟩
        · have := ih.1
          simp only [List.length_cons]
          omega
        · intro b hb
          simp only [List.mem_cons] at hb
          rcases hb with rfl | rfl | rfl | hb
          · omega
          · omega
          · omega
          · exact ih.2 b hb

lemma AddBase64Padding_of_mod {s : List Char} (h : s.length % 4 = 0) :
    AddBase64Padding s = s := by
  simp [AddBase64Padding, h]

/-! ## Structure of Decrypt -/

lemma take_append_of_le {α : Type} (l z : List α) (n : Nat)
    (h : n ≤ l.length) : (l ++ z).take n = l.take n := by
  rw [List.take_append_eq_append_take, Nat.sub_eq_zero_of_le h]
  simp

lemma drop_append_of_le {α : Type} (l z : List α) (n : Nat)
    (h : n ≤ l.length) : (l ++ z).drop n = l.drop n ++ z := by
  rw [List.drop_append_eq_append_drop, Nat.sub_eq_zero_of_le h]
  simp

/-- A successful token decode of length at least 28 never panics and
reduces `Decrypt` to the tag comparison over the first 28 decoded
bytes. -/
lemma decrypt_parts (dc : DoubleClickPricer) (t : List Char) (dbg : Bool)
    (d : List Nat) (hd : base64URLDecode (AddBase64Padding t) = .ok d)
    (hlen : 28 ≤ d.length) :
    dc.Decrypt t dbg =
      if dc.expectedSig (d.take 16) ((d.drop 16).take 8) = (d.drop 24).take 4
      then .price ((beUint64 (dc.candidateMicros (d.take 16)
        ((d.drop 16).take 8)) : ℚ) / dc.scaleFactor)
      else .goError "Failed to decrypt" := by
  have hcap : 28 ≤ (AddBase64Padding t).length / 4 * 3 :=
    le_trans hlen (base64URLDecode_ok _ _ hd).1
  unfold DoubleClickPricer.Decrypt
  simp only [hd]
  rw [if_pos hcap]
  have e1 := take_append_of_le d
    (List.replicate ((AddBase64Padding t).length / 4 * 3 - d.length) 0)
    16 (by omega)
  have e2 : ((d ++ List.replicate
        ((AddBase64Padding t).length / 4 * 3 - d.length) 0).drop 16).take 8 =
      (d.drop 16).take 8 := by
    rw [drop_append_of_le _ _ _ (by omega),
      take_append_of_le _ _ _ (by rw [List.length_drop]; omega)]
  have e3 : ((d ++ List.replicate
        ((AddBase64Padding t).length / 4 * 3 - d.length) 0).drop 24).take 4 =
      (d.drop 24).take 4 := by
    rw [drop_append_of_le _ _ _ (by omega),
      take_append_of_le _ _ _ (by rw [List.length_drop]; omega)]
  rw [e1, e2, e3]

/-! ## Structure of the encryption envelope -/

lemma ApplyScaleFactor_length (price scaleFactor : ℚ) :
    (ApplyScaleFactor price scaleFactor).length = 8 := rfl

lemma pad_length (key iv : List Nat) :
    ((HmacSum key iv).take 8).length = 8 := by
  simp [List.length_take, HmacSum_length]

lemma encryptEnvelope_length (dc : DoubleClickPricer) (seed : List Nat)
    (price : ℚ) : (encryptEnvelope dc seed price).length = 28 := by
  unfold encryptEnvelope
  simp [List.length_append, md5Sum_length, List.length_zipWith, pad_length,
    ApplyScaleFactor_length, List.length_take, HmacSum_length]

lemma encryptEnvelope_lt (dc : DoubleClickPricer) (seed : List Nat)
    (price : ℚ) : ∀ b ∈ encryptEnvelope dc seed price, b < 256 := by
  intro b hb
  unfold encryptEnvelope at hb
  simp only [List.mem_append] at hb
  rcases hb with (hb | hb) | hb
  · exact md5Sum_lt b hb
  · exact zipWith_xor_lt _ _
      (fun x hx => HmacSum_lt x (List.take_subset _ _ hx))
      (fun x hx => uint64BEBytes_lt x hx) b hb
  · exact HmacSum_lt b (List.take_subset _ _ hb)

lemma encryptEnvelope_parts (dc : DoubleClickPricer) (seed : List Nat)
    (price : ℚ) :
    (encryptEnvelope dc seed price).take 16 = md5Sum seed ∧
    ((encryptEnvelope dc seed price).drop 16).take 8 =
      List.zipWith Nat.xor ((HmacSum dc.encryptionKey (md5Sum seed)).take 8)
        (ApplyScaleFactor price dc.scaleFactor) ∧
    ((encryptEnvelope dc seed price).drop 24).take 4 =
      (HmacSum dc.integrityKey
        (ApplyScaleFactor price dc.scaleFactor ++ md5Sum seed)).take 4 := by
  have hiv : (md5Sum seed).length = 16 := md5Sum_length _
  have henc : (List.zipWith Nat.xor
      ((HmacSum dc.encryptionKey (md5Sum seed)).take 8)
      (ApplyScaleFactor price dc.scaleFactor)).length = 8 := by
    simp [List.length_zipWith, List.length_take, HmacSum_length,
      ApplyScaleFactor_length]
  refine ⟨?_, ?_, ?_⟩
  · unfold encryptEnvelope
    rw [List.append_assoc]
    exact List.take_left' hiv
  · unfold encryptEnvelope
    rw [List.append_assoc, List.drop_left' hiv]
    exact List.take_left' henc
  · unfold encryptEnvelope
    rw [List.drop_left' (by rw [List.length_append, hiv, henc])]
    exact List.take_of_length_le (by simp [List.length_take, HmacSum_length])

lemma encrypt_fst (dc : DoubleClickPricer) (seed : List Nat) (price : ℚ)
    (dbg : Bool) : (dc.Encrypt seed price dbg).1 =
      base64URLEncode (encryptEnvelope dc seed price) := rfl

lemma encrypt_token_length (dc : DoubleClickPricer) (seed : List Nat)
    (price : ℚ) (dbg : Bool) : (dc.Encrypt seed price dbg).1.length = 40 := by
  rw [encrypt_fst, base64URLEncode_length, encryptEnvelope_length]

lemma encrypt_token_decodes (dc : DoubleClickPricer) (seed : List Nat)
    (price : ℚ) (dbg : Bool) :
    base64URLDecode (dc.Encrypt seed price dbg).1 =
      .ok (encryptEnvelope dc seed price) := by
  rw [encrypt_fst]
  exact base64URLDecode_encode _ (encryptEnvelope_lt dc seed price)

lemma candidateMicros_encrypt (dc : DoubleClickPricer) (seed : List Nat)
    (price : ℚ) :
    dc.candidateMicros (md5Sum seed)
      (List.zipWith Nat.xor ((HmacSum dc.encryptionKey (md5Sum seed)).take 8)
        (ApplyScaleFactor price dc.scaleFactor)) =
      ApplyScaleFactor price dc.scaleFactor := by
  unfold DoubleClickPricer.candidateMicros
  exact zipWith_xor_cancel _ _
    (by rw [pad_length, ApplyScaleFactor_length])

/-- Decrypt over a token produced by Encrypt on the same codec: the tag
always verifies and the big-endian candidate micros are the scaled
price bytes. -/
lemma decrypt_encrypt (dc : DoubleClickPricer) (seed : List Nat)
    (price : ℚ) (d₁ d₂ : Bool) :
    dc.Decrypt (dc.Encrypt seed price d₁).1 d₂ =
      .price ((beUint64 (ApplyScaleFactor price dc.scaleFactor) : ℚ) /
        dc.scaleFactor) := by
  have hpad_id : AddBase64Padding (dc.Encrypt seed price d₁).1 =
      (dc.Encrypt seed price d₁).1 :=
    AddBase64Padding_of_mod (by rw [encrypt_token_length])
  have hd : base64URLDecode (AddBase64Padding (dc.Encrypt seed price d₁).1) =
      .ok (encryptEnvelope dc seed price) := by
    rw [hpad_id]
    exact encrypt_token_decodes dc seed price d₁
  rw [decrypt_parts dc _ d₂ _ hd (by rw [encryptEnvelope_length])]
  obtain ⟨e1, e2, e3⟩ := encryptEnvelope_parts dc seed price
  rw [e1, e2, e3]
  have hsig : dc.expectedSig (md5Sum seed)
      (List.zipWith Nat.xor ((HmacSum dc.encryptionKey (md5Sum seed)).take 8)
        (ApplyScaleFactor price dc.scaleFactor)) =
      (HmacSum dc.integrityKey
        (ApplyScaleFactor price dc.scaleFactor ++ md5Sum seed)).take 4 := by
    unfold DoubleClickPricer.expectedSig
    rw [candidateMicros_encrypt]
  rw [hsig, if_pos rfl, candidateMicros_encrypt]

/-! ## Concrete fixtures for witnesses and counterexamples -/

/-- A concrete codec holding two 16-byte HMAC keys and the default scale
factor of 1,000,000. -/
def testPricer : DoubleClickPricer :=
  ⟨[], [],
   [1, 35, 69, 103, 137, 171, 205, 239, 1, 35, 69, 103, 137, 171, 205, 239],
   [254, 220, 186, 152, 118, 84, 50, 16, 254, 220, 186, 152, 118, 84, 50, 16],
   .hexa, 1000000, false⟩

/-- UTF-8 bytes of the seed string "abc123". -/
def testSeed : List Nat := [97, 98, 99, 49, 50, 51]

/-- A codec with debug mode on; shares keys and scale factor with
`pricerBeta` but differs in every other field. -/
def pricerAlpha : DoubleClickPricer :=
  ⟨['k'], ['j'], [1, 2, 3], [4, 5, 6], .base64web, 100, true⟩

/-- A codec with debug mode off; shares keys and scale factor with
`pricerAlpha` but differs in every other field. -/
def pricerBeta : DoubleClickPricer :=
  ⟨[], [], [1, 2, 3], [4, 5, 6], .hexa, 100, false⟩

/-! ## The claims -/

/-- C1: for every codec (with its positive scale factor), every seed,
and every non-negative price whose scaled micros value
`round(price * scaleFactor)` is representable in an unsigned 64-bit
integer, `Decrypt` applied to the token produced by `Encrypt` on the
same codec returns the original price to within `±0.5/scaleFactor`. -/
theorem C1_round_trip (dc : DoubleClickPricer) (seed : List Nat) (price : ℚ)
    (d₁ d₂ : Bool) (hscale : 0 < dc.scaleFactor) (hprice : 0 ≤ price)
    (hrange : round (price * dc.scaleFactor) < 18446744073709551616) :
    ∃ p, dc.Decrypt (dc.Encrypt seed price d₁).1 d₂ = .price p ∧
      |p - price| ≤ 1 / (2 * dc.scaleFactor) := by
  have hx : (0:ℚ) ≤ price * dc.scaleFactor :=
    mul_nonneg hprice (le_of_lt hscale)
  have hr0 : 0 ≤ round (price * dc.scaleFactor) := by
    rw [round_eq]
    exact Int.floor_nonneg.mpr (by linarith)
  have hlt : (round (price * dc.scaleFactor)).toNat < 18446744073709551616 :=
    (Int.toNat_lt hr0).mpr (by exact_mod_cast hrange)
  have hmod : (round (price * dc.scaleFactor)).toNat % 18446744073709551616 =
      (round (price * dc.scaleFactor)).toNat := Nat.mod_eq_of_lt hlt
  refine ⟨_, decrypt_encrypt dc seed price d₁ d₂, ?_⟩
  have hbe : beUint64 (ApplyScaleFactor price dc.scaleFactor) =
      (round (price * dc.scaleFactor)).toNat := by
    unfold ApplyScaleFactor
    rw [beUint64_uint64BEBytes (Nat.mod_lt _ (by norm_num)), hmod]
  rw [hbe]
  have hcast : (((round (price * dc.scaleFactor)).toNat : ℕ) : ℚ) =
      ((round (price * dc.scaleFactor) : ℤ) : ℚ) := by
    exact_mod_cast Int.toNat_of_nonneg hr0
  rw [hcast]
  have habs : |((round (price * dc.scaleFactor) : ℤ) : ℚ)
      - price * dc.scaleFactor| ≤ 1 / 2 := by
    have h := abs_sub_round (price * dc.scaleFactor)
    rwa [abs_sub_comm] at h
  have key : ((round (price * dc.scaleFactor) : ℤ) : ℚ) / dc.scaleFactor
      - price =
      (((round (price * dc.scaleFactor) : ℤ) : ℚ) - price * dc.scaleFactor)
        / dc.scaleFactor := by
    field_simp
    ring
  rw [key, abs_div, abs_of_pos hscale]
  calc |((round (price * dc.scaleFactor) : ℤ) : ℚ) - price * dc.scaleFactor|
        / dc.scaleFactor
      ≤ (1 / 2) / dc.scaleFactor :=
        (div_le_div_iff_of_pos_right hscale).mpr habs
    _ = 1 / (2 * dc.scaleFactor) := by rw [div_div]

/-- Witness for C1 at the concrete codec `testPricer`, seed "abc123"
and price 2.50. -/
theorem C1_round_trip_witness :
    (0:ℚ) < testPricer.scaleFactor ∧ (0:ℚ) ≤ 5 / 2 ∧
    round ((5 / 2 : ℚ) * testPricer.scaleFactor) < 18446744073709551616 ∧
    ∃ p, testPricer.Decrypt
        (testPricer.Encrypt testSeed (5 / 2) false).1 false = .price p ∧
      |p - 5 / 2| ≤ 1 / (2 * testPricer.scaleFactor) := by
  have h1 : (0:ℚ) < testPricer.scaleFactor := by norm_num [testPricer]
  have h2 : (0:ℚ) ≤ 5 / 2 := by norm_num
  have h3 : round ((5 / 2 : ℚ) * testPricer.scaleFactor)
      < 18446744073709551616 := by
    have he : (5 / 2 : ℚ) * testPricer.scaleFactor = ((2500000 : ℤ) : ℚ) := by
      norm_num [testPricer]
    rw [he, round_intCast]
    norm_num
  exact ⟨h1, h2, h3, C1_round_trip testPricer testSeed (5 / 2) false false
    h1 h2 h3⟩

/-- C3: on an input that base64url-decodes to fewer than 28 bytes
("AAAA" decodes to three zero bytes), Decrypt does not return a
MalformedTokenError failure result: the slice expression
`decoded[24:28]` exceeds the decoded buffer's capacity and the method
panics at runtime. -/
theorem C3_short_token_panics :
    testPricer.Decrypt ['A', 'A', 'A', 'A'] false = .panicked := by rfl

/-- C4 counterexample: at the negative price −1 the code returns a
40-character token paired with a nil error, not a PriceOutOfRangeError
failure. -/
theorem C4_negative_price_returns_token :
    (testPricer.Encrypt testSeed (-1) false).2 = none ∧
    (testPricer.Encrypt testSeed (-1) false).1.length = 40 :=
  ⟨rfl, encrypt_token_length testPricer testSeed (-1) false⟩

/-- C4 amended: Encrypt never returns an error for any price — its `err`
variable is never assigned — so negative and overflowing prices are
silently encrypted rather than rejected. -/
theorem C4_encrypt_never_errors (dc : DoubleClickPricer) (seed : List Nat)
    (price : ℚ) (dbg : Bool) : (dc.Encrypt seed price dbg).2 = none := rfl

/-- C5: construction with debug=true hex-decodes the key source strings
for logging and aborts on failure, so for the valid base64 key "zzzz"
(not valid hex) construction succeeds with debug=false but fails with
debug=true: the debug flag does alter whether construction succeeds,
contradicting the claim. -/
theorem C5_debug_flag_alters_construction :
    (NewDoubleClickPricer ['z', 'z', 'z', 'z'] ['z', 'z', 'z', 'z'] true
      .base64web 1000000 false).isOk = true ∧
    (NewDoubleClickPricer ['z', 'z', 'z', 'z'] ['z', 'z', 'z', 'z'] true
      .base64web 1000000 true).isOk = false := by
  exact ⟨rfl, rfl⟩

/-- C6: the first 16 bytes of the base64url-decoded token produced by
Encrypt equal the MD5 digest of the seed bytes, for every codec, seed,
price and debug flag — the IV is deterministic with no randomness. -/
theorem C6_iv_is_md5_of_seed (dc : DoubleClickPricer) (seed : List Nat)
    (price : ℚ) (dbg : Bool) :
    Except.map (List.take 16) (base64URLDecode (dc.Encrypt seed price dbg).1)
      = .ok (md5Sum seed) := by
  rw [encrypt_token_decodes]
  simp [Except.map, (encryptEnvelope_parts dc seed price).1]

/-- C7: the tag at offsets 24..27 of the decoded envelope equals the
first 4 bytes of the HMAC under the integrity key of the unmasked
big-endian micros followed by the IV, and the expected tag Decrypt
recomputes from the envelope's IV and masked-price regions equals that
same value. -/
theorem C7_tag_covers_cleartext (dc : DoubleClickPricer) (seed : List Nat)
    (price : ℚ) (dbg : Bool) :
    ∃ env, base64URLDecode (dc.Encrypt seed price dbg).1 = .ok env ∧
      (env.drop 24).take 4 =
        (HmacSum dc.integrityKey
          (ApplyScaleFactor price dc.scaleFactor ++ md5Sum seed)).take 4 ∧
      dc.expectedSig (env.take 16) ((env.drop 16).take 8) =
        (HmacSum dc.integrityKey
          (ApplyScaleFactor price dc.scaleFactor ++ md5Sum seed)).take 4 := by
  obtain ⟨e1, e2, e3⟩ := encryptEnvelope_parts dc seed price
  refine ⟨encryptEnvelope dc seed price,
    encrypt_token_decodes dc seed price dbg, e3, ?_⟩
  rw [e1, e2]
  unfold DoubleClickPricer.expectedSig
  rw [candidateMicros_encrypt]

/-- C8: Encrypt is a deterministic function of the two HMAC keys, the
scale factor, the seed and the price: two codecs agreeing on those, and
any debug arguments, produce byte-identical results. -/
theorem C8_encrypt_deterministic (c₁ c₂ : DoubleClickPricer)
    (he : c₁.encryptionKey = c₂.encryptionKey)
    (hi : c₁.integrityKey = c₂.integrityKey)
    (hs : c₁.scaleFactor = c₂.scaleFactor)
    (seed : List Nat) (price : ℚ) (d₁ d₂ : Bool) :
    c₁.Encrypt seed price d₁ = c₂.Encrypt seed price d₂ := by
  unfold DoubleClickPricer.Encrypt encryptEnvelope
  rw [he, hi, hs]

/-- Witness for C8: two codecs sharing keys and scale factor but
differing in raw key strings, decoding mode and debug flag encrypt
identically. -/
theorem C8_encrypt_deterministic_witness :
    pricerAlpha.Encrypt testSeed 1 true = pricerBeta.Encrypt testSeed 1 false :=
  C8_encrypt_deterministic pricerAlpha pricerBeta rfl rfl rfl testSeed 1
    true false

/-- C9: a token whose base64url decoding yields strictly more than 28
bytes decrypts exactly like the token encoding just its first 28 bytes:
the trailing bytes are ignored. -/
theorem C9_trailing_bytes_ignored (dc : DoubleClickPricer) (t : List Char)
    (d : List Nat) (hd : base64URLDecode (AddBase64Padding t) = .ok d)
    (hlen : 28 < d.length) (d₁ d₂ : Bool) :
    dc.Decrypt t d₁ = dc.Decrypt (base64URLEncode (d.take 28)) d₂ := by
  have hok := base64URLDecode_ok _ _ hd
  have hd28 : (d.take 28).length = 28 := by
    simp [List.length_take]
    omega
  have hlt28 : ∀ b ∈ d.take 28, b < 256 :=
    fun b hb => hok.2 b (List.take_subset _ _ hb)
  have hlen40 : (base64URLEncode (d.take 28)).length = 40 := by
    rw [base64URLEncode_length, hd28]
  have hpad : AddBase64Padding (base64URLEncode (d.take 28)) =
      base64URLEncode (d.take 28) :=
    AddBase64Padding_of_mod (by rw [hlen40])
  have hd' : base64URLDecode
      (AddBase64Padding (base64URLEncode (d.take 28))) = .ok (d.take 28) := by
    rw [hpad]
    exact base64URLDecode_encode _ hlt28
  rw [decrypt_parts dc t d₁ d hd (by omega),
    decrypt_parts dc _ d₂ (d.take 28) hd' (by rw [hd28])]
  have e1 : (d.take 28).take 16 = d.take 16 := by
    rw [List.take_take]
    norm_num
  have e2 : ((d.take 28).drop 16).take 8 = (d.drop 16).take 8 := by
    rw [List.drop_take, List.take_take]
    norm_num
  have e3 : ((d.take 28).drop 24).take 4 = (d.drop 24).take 4 := by
    rw [List.drop_take, List.take_take]
    norm_num
  rw [e1, e2, e3]

/-- Witness for C9: forty 'A' characters decode to thirty zero bytes,
strictly more than 28, and decrypt like the 28-byte truncation. -/
theorem C9_trailing_bytes_ignored_witness :
    base64URLDecode (AddBase64Padding (List.replicate 40 'A')) =
      .ok (List.replicate 30 0) ∧
    28 < (List.replicate 30 (0:Nat)).length ∧
    testPricer.Decrypt (List.replicate 40 'A') false =
      testPricer.Decrypt
        (base64URLEncode ((List.replicate 30 (0:Nat)).take 28)) false := by
  have h1 : base64URLDecode (AddBase64Padding (List.replicate 40 'A')) =
      .ok (List.replicate 30 0) := by rfl
  have h2 : 28 < (List.replicate 30 (0:Nat)).length := by decide
  exact ⟨h1, h2,
    C9_trailing_bytes_ignored testPricer _ _ h1 h2 false false⟩

/-- C10: every token Encrypt produces is exactly 40 characters, ends in
the two padding characters `==`, and decodes to exactly 28 bytes:
output base64 is padded. -/
theorem C10_token_shape (dc : DoubleClickPricer) (seed : List Nat)
    (price : ℚ) (dbg : Bool) :
    (dc.Encrypt seed price dbg).1.length = 40 ∧
    (dc.Encrypt seed price dbg).1.drop 38 = ['=', '='] ∧
    ∃ env, base64URLDecode (dc.Encrypt seed price dbg).1 = .ok env ∧
      env.length = 28 := by
  refine ⟨encrypt_token_length dc seed price dbg, ?_,
    encryptEnvelope dc seed price, encrypt_token_decodes dc seed price dbg,
    encryptEnvelope_length dc seed price⟩
  rw [encrypt_fst]
  have h := base64URLEncode_drop_pad (encryptEnvelope dc seed price)
    (by rw [encryptEnvelope_length])
  rw [encryptEnvelope_length] at h
  norm_num at h
  exact h

end OpenRTB
